import Mathlib

/-!
Verification of the EMG monitor's core pipeline against its specification.

The Python sources are embedded shallowly:

* `emg_monitor/data_parser.py` — `combine_signed`, `parse_packet` and the
  sample types (bytes are modelled as natural numbers; a genuine byte is
  `< 256`).  Python index accesses that could raise `IndexError` are
  modelled through `Option`: a `none` result stands for an uncaught
  exception, every `some` result is the function's declared behaviour.
* `emg_monitor/buffers.py` — `EmgRingBuffer`.  The `(channels, capacity)`
  numpy array is represented column by column: `data` is the list of the
  `capacity` columns, each column one multi-channel sample.
* `emg_monitor/ui/main_window.py` — the per-channel signal-quality state
  machine `_update_channel_indicator` and the calibration accumulation in
  `_handle_emg_sample`.  Python floats are idealised as rationals.
* `emg_monitor/serial_device.py` — the frame synchronizer loop inside
  `_read_loop`.
-/

/-! ## Packet decoder (`emg_monitor/data_parser.py`) -/

/-- Python `HEADER = bytes([0xD2, 0xD2, 0xD2])`. -/
def HEADER : List Nat := [0xD2, 0xD2, 0xD2]

/-- Python `PAYLOAD_LENGTH = 29`. -/
def PAYLOAD_LENGTH : Nat := 29

/-- Python `EmgSample`: one sample across all EMG channels.  The Python field
`channels_uv` holds `float(_combine_signed(...))`; the values are exact
integers below `2^24`, so the field is modelled as integers. -/
structure EmgSample where
  sequence : Nat
  channels_uv : List Int
  deriving DecidableEq, Repr

/-- Python `ImuSample`: gyroscope and accelerometer axes.  The fixed scale factors
`0.0012` and `0.0005978` are idealised as exact rationals. -/
structure ImuSample where
  sequence : Nat
  gyro_rads : List ℚ
  accel_mss : List ℚ
  remainder : List Int
  deriving DecidableEq, Repr

/-- The decoded-packet alternative `EmgSample | ImuSample`. -/
inductive Packet where
  | emg (s : EmgSample)
  | imu (s : ImuSample)
  deriving DecidableEq, Repr

/-- Python `PacketError`: the three ways `parse_packet` rejects a packet. -/
inductive PacketError where
  | badLength (got : Nat)
  | badHeader
  | unknownType (t : Nat)
  deriving DecidableEq, Repr

deriving instance DecidableEq for Except

/-- Python `_combine_signed(bytes_seq, bits)`: big-endian accumulation by
`value = (value << 8) | byte`, then two's complement via
`value - (1 << bits) if value & sign_bit else value`. -/
def combine_signed (bytes_seq : List Nat) (bits : Nat) : Int :=
  let value := bytes_seq.foldl (fun v b => (v <<< 8) ||| b) 0
  let sign_bit := 1 <<< (bits - 1)
  if value &&& sign_bit ≠ 0 then (value : Int) - ((1 <<< bits : Nat) : Int) else (value : Int)

/-- The full 3-byte groups of a payload:
`for offset in range(0, len(payload), 3)` with
`if len(chunk) < 3: break`. -/
def fullChunks3 : List Nat → List (List Nat)
  | b0 :: b1 :: b2 :: rest => [b0, b1, b2] :: fullChunks3 rest
  | _ => []

/-- The full 2-byte groups of a payload, same loop with step 2. -/
def fullChunks2 : List Nat → List (List Nat)
  | b0 :: b1 :: rest => [b0, b1] :: fullChunks2 rest
  | _ => []

/-- Python `parse_packet(raw)`.  A `none` result models an uncaught exception
(out-of-range index access); the length guard makes that branch dead. -/
def parse_packet (raw : List Nat) : Option (Except PacketError Packet) :=
  if raw.length ≠ PAYLOAD_LENGTH then some (.error (.badLength raw.length))
  else if raw.take 3 ≠ HEADER then some (.error .badHeader)
  else
    match raw[3]?, raw[4]? with
    | some packet_type, some sequence =>
      let payload := raw.drop 5
      if packet_type = 0xAA then
        some (.ok (.emg
          { sequence := sequence
            channels_uv := (fullChunks3 payload).map (fun c => combine_signed c 24) }))
      else if packet_type = 0xBB then
        let decoded := (fullChunks2 payload).map (fun c => combine_signed c 16)
        some (.ok (.imu
          { sequence := sequence
            gyro_rads := (decoded.take 3).map (fun v => (v : ℚ) * (12 / 10000))
            accel_mss := ((decoded.drop 3).take 3).map (fun v => (v : ℚ) * (5978 / 10000000))
            remainder := decoded.drop 6 }))
      else some (.error (.unknownType packet_type))
    | _, _ => none

/-! ## Rolling channel buffer (`emg_monitor/buffers.py`) -/

/-- Python `EmgRingBuffer` state: the `(channels, capacity)` float array is kept
column by column (`data` lists the `capacity` columns, each one
multi-channel sample), together with the write cursor and the filled flag. -/
structure EmgRingBuffer where
  channels : Nat
  capacity : Nat
  data : List (List ℚ)
  index : Nat
  filled : Bool
  deriving DecidableEq, Repr

/-- The `ValueError` raised by `EmgRingBuffer.append` on a shape mismatch. -/
inductive BufferError where
  | shape (expected got : Nat)
  deriving DecidableEq, Repr

/-- Python `EmgRingBuffer.__init__`: zeroed data, cursor 0, not filled. -/
def mkEmgRingBuffer (channels capacity : Nat) : EmgRingBuffer :=
  { channels := channels
    capacity := capacity
    data := List.replicate capacity (List.replicate channels 0)
    index := 0
    filled := false }

/-- Python `EmgRingBuffer.append`: the shape check comes first (so the raise leaves
the state untouched), then the column write, the cursor advance modulo
capacity, and the filled flag. -/
def EmgRingBuffer.append (s : EmgRingBuffer) (values : List ℚ) :
    EmgRingBuffer × Option BufferError :=
  if values.length ≠ s.channels then (s, some (.shape s.channels values.length))
  else
    let data := s.data.set s.index values
    let index := (s.index + 1) % s.capacity
    ({ s with data := data, index := index, filled := s.filled || decide (index = 0) }, none)

/-- Python `EmgRingBuffer.snapshot`: a prefix before the first wrap, the two
segments reordered afterwards. -/
def EmgRingBuffer.snapshot (s : EmgRingBuffer) : List (List ℚ) :=
  if ¬ s.filled then s.data.take s.index
  else s.data.drop s.index ++ s.data.take s.index

/-- A sequence of `append` calls, stopping at the first error (a raised
`ValueError` aborts the caller's loop). -/
def EmgRingBuffer.appendAll (s : EmgRingBuffer) :
    List (List ℚ) → EmgRingBuffer × Option BufferError
  | [] => (s, none)
  | v :: vs =>
    match s.append v with
    | (s1, none) => s1.appendAll vs
    | (s1, some e) => (s1, some e)

/-- Reachability invariant of the ring buffer after appending the rows of
`L` to a fresh `c`-column buffer: the cursor and filled flag follow
`L.length`, and the stored columns are the last `min L.length c` rows,
rotated so that the oldest row sits at the cursor. -/
def RingInv (m c : Nat) (L : List (List ℚ)) (s : EmgRingBuffer) : Prop :=
  s.channels = m ∧ s.capacity = c ∧ s.index = L.length % c
  ∧ s.filled = decide (c ≤ L.length)
  ∧ s.data =
      (if c ≤ L.length
        then ((L.drop (L.length - c)).drop (c - L.length % c))
              ++ ((L.drop (L.length - c)).take (c - L.length % c))
        else L ++ List.replicate (c - L.length) (List.replicate m 0))

/-! ## Adaptive quality classifier
(`_update_channel_indicator` in `emg_monitor/ui/main_window.py`) -/

/-- Python `noise_baseline = max(self._channel_noise_level[channel_idx], 100)`. -/
def noise_baseline (noise_level : ℚ) : ℚ := max noise_level 100

/-- The state transition of `_update_channel_indicator` for one channel:
current level and observed strength to new level.  The code first computes a
falling candidate (which may drop several levels, always against the rising
thresholds 2/4/7/12 times the clamped noise baseline; the lower members of
the `thresholds` tuples are never read), then lets a one-step rise
override it. -/
def update_channel_indicator (noise_level : ℚ) (current_state : Nat) (strength : ℚ) : Nat :=
  let nb := noise_baseline noise_level
  let falling :=
    if strength < nb * 2 then 0
    else if strength < nb * 4 then if 2 ≤ current_state then 1 else current_state
    else if strength < nb * 7 then if 3 ≤ current_state then 2 else current_state
    else if strength < nb * 12 then if 4 ≤ current_state then 3 else current_state
    else current_state
  if current_state = 0 ∧ nb * 2 ≤ strength then 1
  else if current_state = 1 ∧ nb * 4 ≤ strength then 2
  else if current_state = 2 ∧ nb * 7 ≤ strength then 3
  else if current_state = 3 ∧ nb * 12 ≤ strength then 4
  else falling

/-- Repeated quality updates with a fixed deviation, from the idle level. -/
def iterate_indicator (noise_level strength : ℚ) : Nat → Nat
  | 0 => 0
  | n + 1 => update_channel_indicator noise_level (iterate_indicator noise_level strength n) strength

/-! ## Calibration accumulation
(the initialization branch of `_handle_emg_sample` in
`emg_monitor/ui/main_window.py`, one channel) -/

/-- The per-channel calibration fields touched by the initialization branch:
`_channel_baseline[i]`, `_channel_last_values[i]`, `_channel_noise_level[i]`
and `_packet_count`. -/
structure CalibState where
  baseline : ℚ
  last_value : ℚ
  noise_level : ℚ
  packet_count : Nat
  deriving DecidableEq, Repr

/-- One calibration sample: `packet_count` is incremented at the top of the
handler, the baseline moves with `alpha = 0.1`, and after the 50-sample
settle window the activity `deviation * 0.7 + change_rate * 0.3` is added
onto `noise_level`. -/
def calib_step (s : CalibState) (ch_value : ℚ) : CalibState :=
  let packet_count := s.packet_count + 1
  let baseline := (1 / 10) * ch_value + (9 / 10) * s.baseline
  let noise_level :=
    if 50 < packet_count then
      let deviation := |ch_value - baseline|
      let change_rate := |ch_value - s.last_value|
      s.noise_level + (deviation * (7 / 10) + change_rate * (3 / 10))
    else s.noise_level
  { baseline := baseline
    last_value := ch_value
    noise_level := noise_level
    packet_count := packet_count }

/-- A whole calibration phase over its samples. -/
def calib_run (s : CalibState) (samples : List ℚ) : CalibState :=
  samples.foldl calib_step s

/-- End of calibration: `noise_level / (initialization_samples - 50)` with
`_initialization_samples = 500`. -/
def calib_finalize (s : CalibState) : ℚ := s.noise_level / (500 - 50)

/-- The recalibration trigger (30 s with every channel idle) resets only
`_baseline_initialized` and `_packet_count`; in particular
`_channel_noise_level` keeps its current value into the next phase. -/
def recalib_reset (s : CalibState) : CalibState := { s with packet_count := 0 }

/-- The activity values `0.7 * |value - baseline| + 0.3 * |value - previous|`
of a phase's samples, in order. -/
def calib_activities (b0 last0 : ℚ) : List ℚ → List ℚ
  | [] => []
  | v :: vs =>
    let b := (1 / 10) * v + (9 / 10) * b0
    (|v - b| * (7 / 10) + |v - last0| * (3 / 10)) :: calib_activities b v vs

/-! ## Frame synchronizer (`_read_loop` in `emg_monitor/serial_device.py`) -/

/-- The marker occurs at offset `i` of `l`. -/
def markerAt (l : List Nat) (i : Nat) : Prop := (l.drop i).take 3 = HEADER

instance (l : List Nat) (i : Nat) : Decidable (markerAt l i) := by
  unfold markerAt; infer_instance

/-- Python `buffer.find(EXPECTED_HEADER)`: offset of the first occurrence of the
3-byte marker, or none. -/
def bufferFind : List Nat → Option Nat
  | [] => none
  | b :: rest =>
    if (b :: rest).take 3 = HEADER then some 0
    else (bufferFind rest).map (· + 1)

/-- The inner `while len(buffer) >= PACKET_LENGTH` loop of `_read_loop`:
returns the left-over accumulator and the frames emitted, in order.  When no
marker is found the accumulator is trimmed to its last
`PACKET_LENGTH - 1 = 28` bytes (only if it exceeds 29 bytes); when one is
found the leading garbage is dropped and, if a full frame is present, its 29
bytes are emitted and scanning continues. -/
def processBuffer (buffer : List Nat) : List Nat × List (List Nat) :=
  if _h : buffer.length < PAYLOAD_LENGTH then (buffer, [])
  else
    match bufferFind buffer with
    | none =>
      (if PAYLOAD_LENGTH < buffer.length then
          buffer.drop (buffer.length - (PAYLOAD_LENGTH - 1))
        else buffer, [])
    | some header_pos =>
      let rest := buffer.drop header_pos
      if rest.length < PAYLOAD_LENGTH then (rest, [])
      else
        let out := processBuffer (rest.drop PAYLOAD_LENGTH)
        (out.1, rest.take PAYLOAD_LENGTH :: out.2)
termination_by buffer.length
decreasing_by
  simp only [List.length_drop]
  simp only [PAYLOAD_LENGTH] at *
  omega

/-- Successive read chunks appended to the accumulator, each followed by one
pass of the scanning loop; collects all emitted frames. -/
def feedChunks : List Nat → List (List Nat) → List Nat × List (List Nat)
  | buffer, [] => (buffer, [])
  | buffer, c :: cs =>
    let out := processBuffer (buffer ++ c)
    let out2 := feedChunks out.1 cs
    (out2.1, out.2 ++ out2.2)

/-! ## Theorems -/

/-- Positivity of the clamped noise baseline. -/
theorem noise_baseline_pos (noise_level : ℚ) : 0 < noise_baseline noise_level :=
  lt_of_lt_of_le (by norm_num) (le_max_right noise_level 100)

/-- C6: one quality update raises the level by at most one step, whatever
the deviation; and a deviation below the lowest rising threshold (twice the
noise floor) sends the level to 0 in that single update, from any level. -/
theorem indicator_rise_one_step_fall_to_idle
    (noise_level strength : ℚ) (current_state : Nat) :
    update_channel_indicator noise_level current_state strength ≤ current_state + 1
    ∧ (strength < noise_baseline noise_level * 2 →
        update_channel_indicator noise_level current_state strength = 0) := by
  have hnb := noise_baseline_pos noise_level
  constructor
  · simp only [update_channel_indicator]
    split_ifs with h1 h2 h3 h4 <;> omega
  · intro hs
    simp only [update_channel_indicator]
    split_ifs with h1 h2 h3 h4 <;>
      first
        | rfl
        | (obtain ⟨-, h⟩ := h1; linarith)
        | (obtain ⟨-, h⟩ := h2; linarith)
        | (obtain ⟨-, h⟩ := h3; linarith)
        | (obtain ⟨-, h⟩ := h4; linarith)

/-- C1 (amended): with a calibrated floor at or above the 100-unit clamp, a
deviation of exactly three times the floor drives the channel to level 1
(one step per update, and 3x is below the 4x rising threshold of level 2),
keeps it there on every later update, and the channel returns to level 0
exactly when the deviation drops below twice the noise floor — the
threshold the code uses both to enter and to leave level 1. -/
theorem indicator_three_times_floor_hysteresis (noise_level : ℚ)
    (hfloor : 100 ≤ noise_level) :
    (∀ n, 1 ≤ n → iterate_indicator noise_level (3 * noise_level) n = 1)
    ∧ (∀ strength,
        update_channel_indicator noise_level 1 strength = 0 ↔ strength < noise_level * 2) := by
  have hnb : noise_baseline noise_level = noise_level := max_eq_left hfloor
  have hpos : (0 : ℚ) < noise_level := by linarith
  have hstep0 : update_channel_indicator noise_level 0 (3 * noise_level) = 1 := by
    simp only [update_channel_indicator, true_and, false_and]
    rw [if_pos (show noise_baseline noise_level * 2 ≤ 3 * noise_level by rw [hnb]; linarith)]
  have hstep1 : update_channel_indicator noise_level 1 (3 * noise_level) = 1 := by
    simp only [update_channel_indicator, true_and, false_and]
    rw [if_neg (show ¬ noise_baseline noise_level * 4 ≤ 3 * noise_level by
      rw [hnb]; intro h; linarith)]
    rw [if_neg (show ¬ 3 * noise_level < noise_baseline noise_level * 2 by
      rw [hnb]; intro h; linarith)]
    rw [if_pos (show 3 * noise_level < noise_baseline noise_level * 4 by rw [hnb]; linarith)]
    norm_num
  refine ⟨?_, ?_⟩
  · intro n hn
    induction n with
    | zero => exact absurd hn (by norm_num)
    | succ k ih =>
      rcases Nat.eq_zero_or_pos k with hk | hk
      · subst hk
        simpa only [iterate_indicator] using hstep0
      · have h1 := ih hk
        simp only [iterate_indicator]
        rw [h1]
        exact hstep1
  · intro strength
    by_cases hs : strength < noise_level * 2
    · have hval : update_channel_indicator noise_level 1 strength = 0 := by
        simp only [update_channel_indicator, true_and, false_and]
        rw [if_neg (show ¬ noise_baseline noise_level * 4 ≤ strength by
          rw [hnb]; intro h; linarith)]
        rw [if_pos (show strength < noise_baseline noise_level * 2 by rw [hnb]; linarith)]
        norm_num
      exact iff_of_true hval hs
    · have hval : update_channel_indicator noise_level 1 strength ≠ 0 := by
        push_neg at hs
        simp only [update_channel_indicator, true_and, false_and]
        by_cases hs4 : noise_level * 4 ≤ strength
        · rw [if_pos (show noise_baseline noise_level * 4 ≤ strength by rw [hnb]; linarith)]
          norm_num
        · push_neg at hs4
          rw [if_neg (show ¬ noise_baseline noise_level * 4 ≤ strength by
            rw [hnb]; intro h; linarith)]
          rw [if_neg (show ¬ strength < noise_baseline noise_level * 2 by
            rw [hnb]; intro h; linarith)]
          rw [if_pos (show strength < noise_baseline noise_level * 4 by rw [hnb]; linarith)]
          norm_num
      exact iff_of_false hval hs

/-- Witness for C1 at a concrete floor of 200 units: three iterations at
deviation 600 sit at level 1, and from level 1 a deviation of 250 (below
2 x 200 = 400) returns the channel to level 0. -/
theorem indicator_three_times_floor_hysteresis_witness :
    iterate_indicator 200 600 3 = 1 ∧ update_channel_indicator 200 1 250 = 0 := by
  have h := indicator_three_times_floor_hysteresis 200 (by norm_num)
  constructor
  · have h3 := h.1 3 (by norm_num)
    norm_num at h3
    exact h3
  · exact (h.2 250).mpr (by norm_num)

/-- C1 as stated is false on the code: with a calibrated floor of 200 units
and a deviation of exactly 600 = 3 x 200 on every update, the level never
reaches 2 — rising from 1 to 2 requires a deviation of at least 4 times the
floor. -/
theorem indicator_three_times_floor_never_level_two :
    (∃ n, iterate_indicator 200 600 n = 2) = False := by
  apply eq_false
  rintro ⟨n, hn⟩
  have hmax : max (200 : ℚ) 100 = 200 := max_eq_left (by norm_num)
  have s0 : update_channel_indicator 200 0 600 = 1 := by
    simp only [update_channel_indicator, noise_baseline, hmax]
    norm_num
  have s1 : update_channel_indicator 200 1 600 = 1 := by
    simp only [update_channel_indicator, noise_baseline, hmax]
    norm_num
  have hb : ∀ m, iterate_indicator 200 600 m ≤ 1 := by
    intro m
    induction m with
    | zero => simp [iterate_indicator]
    | succ k ih =>
      have hcase : iterate_indicator 200 600 k = 0 ∨ iterate_indicator 200 600 k = 1 := by
        omega
      simp only [iterate_indicator]
      rcases hcase with h0 | h1
      · rw [h0, s0]
      · rw [h1, s1]
  have := hb n
  omega

/-- Shifting one byte in: `(v << 8) | b` equals `256 * v + b` when `b` is a
genuine byte. -/
theorem shiftLeft_lor_byte (v b : Nat) (hb : b < 256) : (v <<< 8) ||| b = 256 * v + b := by
  apply Nat.eq_of_testBit_eq
  intro i
  rw [Nat.testBit_lor, Nat.testBit_shiftLeft]
  rcases Nat.lt_or_ge i 8 with h | h
  · have hd : (decide (i ≥ 8)) = false := by
      simp only [decide_eq_false_iff_not]
      omega
    rw [hd, Bool.false_and, Bool.false_or]
    rw [Nat.testBit_to_div_mod, Nat.testBit_to_div_mod]
    have hsplit : 256 * v + b = b + 2 ^ i * (2 ^ (8 - i) * v) := by
      rw [← Nat.mul_assoc, ← Nat.pow_add]
      have : i + (8 - i) = 8 := by omega
      rw [this]
      ring
    rw [hsplit, Nat.add_mul_div_left _ _ (Nat.two_pow_pos i)]
    have htwo : 2 ^ (8 - i) * v = 2 * (2 ^ (7 - i) * v) := by
      rw [← Nat.mul_assoc]
      have : (2 : Nat) ^ (8 - i) = 2 * 2 ^ (7 - i) := by
        rw [← Nat.pow_succ']
        congr 1
        omega
      rw [this]
    rw [htwo, Nat.add_mul_mod_self_left]
  · have hd : (decide (i ≥ 8)) = true := by
      simp only [decide_eq_true_eq]
      omega
    rw [hd, Bool.true_and]
    have hb' : b.testBit i = false := by
      apply Nat.testBit_eq_false_of_lt
      calc b < 256 := hb
        _ = 2 ^ 8 := by norm_num
        _ ≤ 2 ^ i := Nat.pow_le_pow_right (by norm_num) h
    rw [hb', Bool.or_false]
    have hdiv : (256 * v + b) / 2 ^ i = v / 2 ^ (i - 8) := by
      have hi : (2 : Nat) ^ i = 2 ^ 8 * 2 ^ (i - 8) := by
        rw [← Nat.pow_add]
        congr 1
        omega
      rw [hi, ← Nat.div_div_eq_div_mul]
      have h8 : (256 * v + b) / 2 ^ 8 = v := by
        have h256 : (256 : Nat) * v + b = 2 ^ 8 * v + b := by norm_num
        rw [h256, Nat.mul_add_div (Nat.two_pow_pos 8)]
        have hb0 : b / 2 ^ 8 = 0 := Nat.div_eq_of_lt (by norm_num; omega)
        omega
      rw [h8]
    rw [Nat.testBit_to_div_mod, Nat.testBit_to_div_mod, hdiv]

/-- The sign test `value & (1 << (bits - 1)) != 0` is the comparison
`2 ^ (bits - 1) <= value`, for values within `bits` bits. -/
theorem and_sign_bit_iff (v bits : Nat) (hbits : 1 ≤ bits) (hv : v < 2 ^ bits) :
    (v &&& (1 <<< (bits - 1)) ≠ 0) ↔ 2 ^ (bits - 1) ≤ v := by
  rw [Nat.shiftLeft_eq, Nat.one_mul, Nat.and_two_pow]
  have hpos := Nat.two_pow_pos (bits - 1)
  have hlt : v / 2 ^ (bits - 1) < 2 := by
    rw [Nat.div_lt_iff_lt_mul hpos]
    have h2 : 2 ^ bits = 2 ^ (bits - 1) * 2 := by
      rw [← Nat.pow_succ]
      congr 1
      omega
    omega
  rw [Nat.testBit_to_div_mod]
  rcases Nat.lt_or_ge v (2 ^ (bits - 1)) with hsmall | hbig
  · have hdiv : v / 2 ^ (bits - 1) = 0 := Nat.div_eq_of_lt hsmall
    rw [hdiv]
    simp
    omega
  · have h1 : 1 ≤ v / 2 ^ (bits - 1) := by
      rw [Nat.le_div_iff_mul_le hpos, Nat.one_mul]
      exact hbig
    have hdiv : v / 2 ^ (bits - 1) = 1 := by omega
    rw [hdiv]
    simp
    exact hbig

/-- Closed form of `combine_signed` once the byte fold is known: the result
is the unsigned value, lowered by `2 ^ bits` exactly when the top bit is
set. -/
theorem combine_signed_eq (bs : List Nat) (bits V : Nat)
    (hfold : bs.foldl (fun v b => (v <<< 8) ||| b) 0 = V)
    (hbits : 1 ≤ bits) (hV : V < 2 ^ bits) :
    combine_signed bs bits =
      if V < 2 ^ (bits - 1) then (V : Int) else (V : Int) - 2 ^ bits := by
  simp only [combine_signed]
  rw [hfold]
  have hiff := and_sign_bit_iff V bits hbits hV
  rcases Nat.lt_or_ge V (2 ^ (bits - 1)) with hc | hc
  · have hnle : ¬ 2 ^ (bits - 1) ≤ V := by omega
    have hneg : ¬ (V &&& 1 <<< (bits - 1) ≠ 0) := fun h => hnle (hiff.mp h)
    rw [if_pos hc, if_neg hneg]
  · have hand : V &&& 1 <<< (bits - 1) ≠ 0 := hiff.mpr hc
    have hnlt : ¬ V < 2 ^ (bits - 1) := by omega
    rw [if_pos hand, if_neg hnlt]
    congr 1
    rw [Nat.shiftLeft_eq, Nat.one_mul]
    push_cast
    ring

/-- C4: signed decoding is exact two's complement at the non-native widths.
A 3-byte (resp. 2-byte) group combined most-significant-first into an
unsigned value decodes to that value, minus `2 ^ 24` (resp. `2 ^ 16`) when
the top bit is set; in particular, inside a valid muscle frame the group
`80 00 00` decodes to -8388608 and `7F FF FF` to 8388607. -/
theorem combine_signed_exact_twos_complement :
    (∀ b0 b1 b2 : Nat, b0 < 256 → b1 < 256 → b2 < 256 →
      combine_signed [b0, b1, b2] 24 =
        if b0 * 65536 + b1 * 256 + b2 < 8388608
          then ((b0 * 65536 + b1 * 256 + b2 : Nat) : Int)
          else ((b0 * 65536 + b1 * 256 + b2 : Nat) : Int) - 16777216)
    ∧ (∀ b0 b1 : Nat, b0 < 256 → b1 < 256 →
      combine_signed [b0, b1] 16 =
        if b0 * 256 + b1 < 32768
          then ((b0 * 256 + b1 : Nat) : Int)
          else ((b0 * 256 + b1 : Nat) : Int) - 65536)
    ∧ combine_signed [0x80, 0x00, 0x00] 24 = -8388608
    ∧ combine_signed [0x7F, 0xFF, 0xFF] 24 = 8388607
    ∧ (∃ s, parse_packet ([0xD2, 0xD2, 0xD2, 0xAA, 0, 0x80, 0x00, 0x00, 0x7F, 0xFF, 0xFF]
          ++ List.replicate 18 0) = some (.ok (.emg s))
        ∧ s.channels_uv.take 2 = [-8388608, 8388607]) := by
  have part3 : ∀ b0 b1 b2 : Nat, b0 < 256 → b1 < 256 → b2 < 256 →
      combine_signed [b0, b1, b2] 24 =
        if b0 * 65536 + b1 * 256 + b2 < 8388608
          then ((b0 * 65536 + b1 * 256 + b2 : Nat) : Int)
          else ((b0 * 65536 + b1 * 256 + b2 : Nat) : Int) - 16777216 := by
    intro b0 b1 b2 h0 h1 h2
    have hfold : [b0, b1, b2].foldl (fun v b => (v <<< 8) ||| b) 0
        = b0 * 65536 + b1 * 256 + b2 := by
      simp only [List.foldl]
      rw [shiftLeft_lor_byte 0 b0 h0, shiftLeft_lor_byte _ b1 h1, shiftLeft_lor_byte _ b2 h2]
      ring
    have hV : b0 * 65536 + b1 * 256 + b2 < 2 ^ 24 := by
      have h24 : (2 : Nat) ^ 24 = 16777216 := by norm_num
      omega
    rw [combine_signed_eq _ 24 _ hfold (by norm_num) hV]
    have h23 : (2 : Nat) ^ (24 - 1) = 8388608 := by norm_num
    have h24 : ((2 : Int) ^ 24) = 16777216 := by norm_num
    rw [h23, h24]
  have part2 : ∀ b0 b1 : Nat, b0 < 256 → b1 < 256 →
      combine_signed [b0, b1] 16 =
        if b0 * 256 + b1 < 32768
          then ((b0 * 256 + b1 : Nat) : Int)
          else ((b0 * 256 + b1 : Nat) : Int) - 65536 := by
    intro b0 b1 h0 h1
    have hfold : [b0, b1].foldl (fun v b => (v <<< 8) ||| b) 0 = b0 * 256 + b1 := by
      simp only [List.foldl]
      rw [shiftLeft_lor_byte 0 b0 h0, shiftLeft_lor_byte _ b1 h1]
      ring
    have hV : b0 * 256 + b1 < 2 ^ 16 := by
      have h16 : (2 : Nat) ^ 16 = 65536 := by norm_num
      omega
    rw [combine_signed_eq _ 16 _ hfold (by norm_num) hV]
    have h15 : (2 : Nat) ^ (16 - 1) = 32768 := by norm_num
    have h16 : ((2 : Int) ^ 16) = 65536 := by norm_num
    rw [h15, h16]
  refine ⟨part3, part2, ?_, ?_, ?_⟩
  · rw [part3 0x80 0x00 0x00 (by norm_num) (by norm_num) (by norm_num)]
    norm_num
  · rw [part3 0x7F 0xFF 0xFF (by norm_num) (by norm_num) (by norm_num)]
    norm_num
  · exact ⟨⟨0, [-8388608, 8388607, 0, 0, 0, 0, 0, 0]⟩, by decide, by decide⟩

/-- C10: `parse_packet` is total with a single failure mode — on every byte
string it reaches a declared result (sample or `PacketError`); the
exception-modelling `none` branch (an out-of-range index access) is
unreachable because both index accesses sit behind the length guard. -/
theorem parse_packet_total (raw : List Nat) : (parse_packet raw).isSome := by
  by_cases hlen : raw.length = PAYLOAD_LENGTH
  · have h3 : 3 < raw.length := by rw [hlen]; norm_num [PAYLOAD_LENGTH]
    have h4 : 4 < raw.length := by rw [hlen]; norm_num [PAYLOAD_LENGTH]
    unfold parse_packet
    rw [if_neg (fun h => h hlen)]
    by_cases hhd : raw.take 3 ≠ HEADER
    · rw [if_pos hhd]
      rfl
    · rw [if_neg hhd, List.getElem?_eq_getElem h3, List.getElem?_eq_getElem h4]
      dsimp only
      split_ifs <;> rfl
  · unfold parse_packet
    rw [if_pos hlen]
    rfl

/-- C3: `parse_packet` rejects exactly the packets whose length is not 29,
or that do not start with the 3-byte header, or whose type byte is neither
`0xAA` nor `0xBB`; every other packet decodes to a sample of the kind named
by the type byte, whose sequence field is byte 4. -/
theorem parse_packet_error_iff (raw : List Nat) :
    ((∃ e, parse_packet raw = some (Except.error e)) ↔
      raw.length ≠ 29 ∨ raw.take 3 ≠ HEADER
        ∨ (raw[3]? ≠ some 0xAA ∧ raw[3]? ≠ some 0xBB))
    ∧ (raw.length = 29 → raw.take 3 = HEADER → raw[3]? = some 0xAA →
        ∃ s, parse_packet raw = some (Except.ok (Packet.emg s)) ∧ raw[4]? = some s.sequence)
    ∧ (raw.length = 29 → raw.take 3 = HEADER → raw[3]? = some 0xBB →
        ∃ s, parse_packet raw = some (Except.ok (Packet.imu s)) ∧ raw[4]? = some s.sequence) := by
  by_cases hlen : raw.length = PAYLOAD_LENGTH
  case neg =>
    have hlen' : raw.length ≠ 29 := by simpa [PAYLOAD_LENGTH] using hlen
    have hp : parse_packet raw = some (.error (.badLength raw.length)) := by
      unfold parse_packet
      rw [if_pos hlen]
    refine ⟨iff_of_true ⟨_, hp⟩ (Or.inl hlen'), ?_, ?_⟩
    · intro h
      exact absurd h hlen'
    · intro h
      exact absurd h hlen'
  case pos =>
    have hlen' : raw.length = 29 := by simpa [PAYLOAD_LENGTH] using hlen
    have h3 : 3 < raw.length := by omega
    have h4 : 4 < raw.length := by omega
    have hget3 := List.getElem?_eq_getElem h3
    have hget4 := List.getElem?_eq_getElem h4
    by_cases hhd : raw.take 3 = HEADER
    case neg =>
      have hp : parse_packet raw = some (.error .badHeader) := by
        unfold parse_packet
        rw [if_neg (fun h => h hlen), if_pos hhd]
      refine ⟨iff_of_true ⟨_, hp⟩ (Or.inr (Or.inl hhd)), ?_, ?_⟩
      · intro _ hh _
        exact absurd hh hhd
      · intro _ hh _
        exact absurd hh hhd
    case pos =>
      by_cases hAA : raw[3] = 0xAA
      · have hp : parse_packet raw = some (.ok (.emg
            { sequence := raw[4]
              channels_uv := (fullChunks3 (raw.drop 5)).map (fun c => combine_signed c 24) })) := by
          unfold parse_packet
          rw [if_neg (fun h => h hlen), if_neg (fun h => h hhd), hget3, hget4]
          dsimp only
          rw [if_pos hAA]
        refine ⟨?_, ?_, ?_⟩
        · apply iff_of_false
          · rintro ⟨e, he⟩
            rw [hp] at he
            simp at he
          · rintro (h | h | ⟨h, -⟩)
            · exact h hlen'
            · exact h hhd
            · rw [hget3] at h
              exact h (by rw [hAA])
        · intro _ _ _
          exact ⟨_, hp, by rw [hget4]⟩
        · intro _ _ hBB
          rw [hget3] at hBB
          have : raw[3] = 0xBB := Option.some.inj hBB
          rw [hAA] at this
          norm_num at this
      · by_cases hBB : raw[3] = 0xBB
        · have hp : parse_packet raw = some (.ok (.imu
              { sequence := raw[4]
                gyro_rads := (((fullChunks2 (raw.drop 5)).map (fun c => combine_signed c 16)).take 3).map
                  (fun v => (v : ℚ) * (12 / 10000))
                accel_mss := ((((fullChunks2 (raw.drop 5)).map (fun c => combine_signed c 16)).drop 3).take 3).map
                  (fun v => (v : ℚ) * (5978 / 10000000))
                remainder := ((fullChunks2 (raw.drop 5)).map (fun c => combine_signed c 16)).drop 6 })) := by
            unfold parse_packet
            rw [if_neg (fun h => h hlen), if_neg (fun h => h hhd), hget3, hget4]
            dsimp only
            rw [if_neg (by rw [hBB]; norm_num), if_pos hBB]
          refine ⟨?_, ?_, ?_⟩
          · apply iff_of_false
            · rintro ⟨e, he⟩
              rw [hp] at he
              simp at he
            · rintro (h | h | ⟨-, h⟩)
              · exact h hlen'
              · exact h hhd
              · rw [hget3] at h
                exact h (by rw [hBB])
          · intro _ _ hAA'
            rw [hget3] at hAA'
            have : raw[3] = 0xAA := Option.some.inj hAA'
            exact absurd this hAA
          · intro _ _ _
            exact ⟨_, hp, by rw [hget4]⟩
        · have hp : parse_packet raw = some (.error (.unknownType raw[3])) := by
            unfold parse_packet
            rw [if_neg (fun h => h hlen), if_neg (fun h => h hhd), hget3, hget4]
            dsimp only
            rw [if_neg hAA, if_neg hBB]
          refine ⟨?_, ?_, ?_⟩
          · apply iff_of_true ⟨_, hp⟩
            refine Or.inr (Or.inr ⟨?_, ?_⟩)
            · rw [hget3]
              intro h
              exact hAA (Option.some.inj h)
            · rw [hget3]
              intro h
              exact hBB (Option.some.inj h)
          · intro _ _ hAA'
            rw [hget3] at hAA'
            exact absurd (Option.some.inj hAA') hAA
          · intro _ _ hBB'
            rw [hget3] at hBB'
            exact absurd (Option.some.inj hBB') hBB

/-- C9: `EmgRingBuffer.append` fails exactly when the value vector's length
differs from the configured channel count, and on failure the state — data,
write index and filled flag — is returned untouched (the check precedes
every mutation). -/
theorem append_shape_error (s : EmgRingBuffer) (values : List ℚ) :
    ((s.append values).2.isSome ↔ values.length ≠ s.channels)
    ∧ ((s.append values).2.isSome → (s.append values).1 = s)
    ∧ ((s.append values).2 = none → values.length = s.channels) := by
  unfold EmgRingBuffer.append
  by_cases h : values.length = s.channels
  · rw [if_neg (fun hne => hne h)]
    exact ⟨by simp [h], by simp, fun _ => h⟩
  · rw [if_pos h]
    exact ⟨by simp [h], fun _ => rfl, by simp⟩

/-- What the calibration fold accumulates: starting from packet count `c`,
`noise_level` grows by exactly the activities of the phase's samples past
the 50-sample settle window — on top of whatever `noise_level` already
held. -/
theorem calib_run_noise_level (samples : List ℚ) :
    ∀ (b l n : ℚ) (c : Nat),
      (calib_run ⟨b, l, n, c⟩ samples).noise_level
        = n + ((calib_activities b l samples).drop (50 - c)).sum := by
  induction samples with
  | nil =>
    intro b l n c
    simp [calib_run, calib_activities]
  | cons v vs ih =>
    intro b l n c
    simp only [calib_run, List.foldl_cons]
    have hstep_eq : calib_step ⟨b, l, n, c⟩ v
        = ⟨(1 / 10) * v + (9 / 10) * b, v,
            (if 50 < c + 1
              then n + (|v - ((1 / 10) * v + (9 / 10) * b)| * (7 / 10) + |v - l| * (3 / 10))
              else n), c + 1⟩ := rfl
    have hi := ih ((1 / 10) * v + (9 / 10) * b) v
      (if 50 < c + 1
        then n + (|v - ((1 / 10) * v + (9 / 10) * b)| * (7 / 10) + |v - l| * (3 / 10))
        else n) (c + 1)
    simp only [calib_run] at hi
    rw [hstep_eq, hi]
    simp only [calib_activities]
    rcases Nat.lt_or_ge c 50 with hc | hc
    · rw [if_neg (by omega)]
      have hdrop : 50 - c = (50 - (c + 1)) + 1 := by omega
      rw [hdrop, List.drop_succ_cons]
    · rw [if_pos (by omega)]
      have h50 : 50 - c = 0 := by omega
      have h51 : 50 - (c + 1) = 0 := by omega
      rw [h50, h51, List.drop_zero, List.drop_zero, List.sum_cons]
      ring

/-- On an all-zero phase started from a zero baseline, every activity value
is zero. -/
theorem calib_activities_zero (k : Nat) :
    calib_activities 0 0 (List.replicate k 0) = List.replicate k 0 := by
  induction k with
  | zero => simp [calib_activities]
  | succ k ih =>
    rw [List.replicate_succ]
    simp only [calib_activities]
    norm_num
    exact ih

/-- C7 at a failing input: a periodic recalibration starts with the previous
noise floor still in the accumulator (`recalib_reset` clears only the packet
counter), so after a 500-sample all-zero recalibration phase the computed
noise floor is `450 / 450 = 1`, while the claim's formula — the phase's
accumulated activity divided by `N - 50` — gives 0.  The initial phase
(accumulator 0) does satisfy the formula. -/
theorem recalibration_keeps_old_noise_floor :
    calib_finalize (calib_run (recalib_reset ⟨0, 0, 450, 6501⟩) (List.replicate 500 0)) = 1
    ∧ ((calib_activities 0 0 (List.replicate 500 0)).drop 50).sum / (500 - 50) = 0
    ∧ calib_finalize (calib_run ⟨0, 0, 0, 0⟩ (List.replicate 500 0))
        = ((calib_activities 0 0 (List.replicate 500 0)).drop 50).sum / (500 - 50) := by
  have hsum : ((calib_activities 0 0 (List.replicate 500 0)).drop 50).sum = 0 := by
    rw [calib_activities_zero 500, List.drop_replicate, List.sum_replicate, smul_zero]
  have hreset : recalib_reset ⟨0, 0, 450, 6501⟩ = (⟨0, 0, 450, 0⟩ : CalibState) := rfl
  have h1 := calib_run_noise_level (List.replicate 500 0) 0 0 450 0
  have h2 := calib_run_noise_level (List.replicate 500 0) 0 0 0 0
  refine ⟨?_, ?_, ?_⟩
  · rw [hreset]
    unfold calib_finalize
    rw [h1]
    norm_num at hsum ⊢
    rw [hsum]
    norm_num
  · rw [hsum]
    norm_num
  · unfold calib_finalize
    rw [h2]
    norm_num

/-- One valid `append` preserves the invariant and reports no error. -/
theorem ringInv_append (m c : Nat) (hc : 1 ≤ c) (L : List (List ℚ)) (s : EmgRingBuffer)
    (hinv : RingInv m c L s) (v : List ℚ) (hv : v.length = m) :
    (s.append v).2 = none ∧ RingInv m c (L ++ [v]) (s.append v).1 := by
  obtain ⟨hch, hcap, hidx, hfil, hdata⟩ := hinv
  have hvne : ¬ v.length ≠ s.channels := fun h => h (by rw [hv, hch])
  unfold EmgRingBuffer.append
  rw [if_neg hvne]
  have hlen1 : (L ++ [v]).length = L.length + 1 := by
    rw [List.length_append, List.length_singleton]
  refine ⟨rfl, hch, hcap, ?_, ?_, ?_⟩
  · show (s.index + 1) % s.capacity = (L ++ [v]).length % c
    rw [hidx, hcap, Nat.mod_add_mod, hlen1]
  · show (s.filled || decide ((s.index + 1) % s.capacity = 0))
      = decide (c ≤ (L ++ [v]).length)
    rw [hidx, hcap, Nat.mod_add_mod, hfil, hlen1]
    rcases Nat.lt_or_ge (L.length + 1) c with hA | hC
    · rw [Nat.mod_eq_of_lt hA,
        decide_eq_false (by omega : ¬ c ≤ L.length),
        decide_eq_false (by omega : ¬ L.length + 1 = 0),
        decide_eq_false (by omega : ¬ c ≤ L.length + 1)]
      rfl
    · rcases Nat.lt_or_ge L.length c with hB | hCC
      · have heq : L.length + 1 = c := by omega
        rw [heq, Nat.mod_self,
          decide_eq_false (by omega : ¬ c ≤ L.length), Bool.false_or,
          decide_eq_true (by omega : c ≤ c)]
        rfl
      · rw [decide_eq_true (by omega : c ≤ L.length), Bool.true_or,
          decide_eq_true (by omega : c ≤ L.length + 1)]
  · show s.data.set s.index v = _
    rw [hlen1]
    rcases Nat.lt_or_ge L.length c with hnf | hf
    · have hdata0 : s.data = L ++ List.replicate (c - L.length) (List.replicate m 0) := by
        rw [hdata, if_neg (by omega)]
      have hset : s.data.set s.index v
          = L ++ v :: List.replicate (c - L.length - 1) (List.replicate m 0) := by
        rw [hdata0, hidx, Nat.mod_eq_of_lt hnf, List.set_append,
          if_neg (by omega : ¬ L.length < L.length), Nat.sub_self]
        nth_rewrite 1 [show c - L.length = (c - L.length - 1) + 1 by omega]
        rw [List.replicate_succ, List.set_cons_zero]
      rcases Nat.lt_or_ge (L.length + 1) c with hA | hB
      · rw [if_neg (by omega), hset,
          show c - (L.length + 1) = c - L.length - 1 by omega,
          List.append_assoc, List.singleton_append]
      · have heq : L.length + 1 = c := by omega
        rw [if_pos (by omega), hset, show c - L.length - 1 = 0 by omega,
          List.replicate_zero,
          show L.length + 1 - c = 0 by omega, List.drop_zero,
          heq, Nat.mod_self, Nat.sub_zero,
          List.drop_eq_nil_of_le (le_of_eq (by rw [hlen1, heq])),
          List.take_of_length_le (le_of_eq (by rw [hlen1, heq])), List.nil_append]
    · have hi : L.length % c < c := Nat.mod_lt _ (by omega)
      have hql : (L.drop (L.length - c)).length = c := by
        rw [List.length_drop]
        omega
      have hdata0 : s.data
          = ((L.drop (L.length - c)).drop (c - L.length % c))
            ++ ((L.drop (L.length - c)).take (c - L.length % c)) := by
        rw [hdata, if_pos hf]
      have hfirstlen : ((L.drop (L.length - c)).drop (c - L.length % c)).length
          = L.length % c := by
        rw [List.length_drop, hql]
        omega
      have htklen : 0 < ((L.drop (L.length - c)).take (c - L.length % c)).length := by
        rw [List.length_take, hql]
        omega
      have hset : s.data.set s.index v
          = ((L.drop (L.length - c)).drop (c - L.length % c))
            ++ v :: ((L.drop (L.length - c)).drop 1).take (c - L.length % c - 1) := by
        rw [hdata0, hidx, List.set_append, if_neg (by rw [hfirstlen]; omega),
          hfirstlen, Nat.sub_self]
        congr 1
        rw [List.set_eq_take_append_cons_drop, if_pos htklen, List.take_zero,
          List.nil_append, Nat.zero_add, List.drop_take]
      have hq' : (L ++ [v]).drop (L.length + 1 - c) = L.drop (L.length + 1 - c) ++ [v] := by
        rw [List.drop_append_eq_append_drop,
          show L.length + 1 - c - L.length = 0 by omega, List.drop_zero]
      have hdrop1 : (L.drop (L.length - c)).drop 1 = L.drop (L.length + 1 - c) := by
        rw [List.drop_drop, show L.length - c + 1 = L.length + 1 - c by omega]
      rw [if_pos (by omega), hset, hq']
      have hLdlen : (L.drop (L.length + 1 - c)).length = c - 1 := by
        rw [List.length_drop]
        omega
      rcases Nat.lt_or_ge (L.length % c + 1) c with hC1 | hC2
      · have hmod : (L.length + 1) % c = L.length % c + 1 := by
          rw [← Nat.mod_add_mod, Nat.mod_eq_of_lt hC1]
        rw [hmod, List.drop_append_eq_append_drop, List.take_append_eq_append_take, hLdlen,
          show c - (L.length % c + 1) - (c - 1) = 0 by omega,
          List.drop_zero, List.take_zero, List.append_nil, hdrop1]
        have hAdrop : (L.drop (L.length - c)).drop (c - L.length % c)
            = (L.drop (L.length + 1 - c)).drop (c - (L.length % c + 1)) := by
          rw [List.drop_drop, List.drop_drop]
          congr 1
          omega
        rw [hAdrop, List.append_assoc, List.singleton_append,
          show c - (L.length % c + 1) = c - L.length % c - 1 by omega]
      · have hieq : L.length % c + 1 = c := by omega
        have hmod : (L.length + 1) % c = 0 := by
          rw [← Nat.mod_add_mod, hieq, Nat.mod_self]
        have hlen2 : (L.drop (L.length + 1 - c) ++ [v]).length = c := by
          rw [List.length_append, List.length_drop, List.length_singleton]
          omega
        rw [hmod, Nat.sub_zero,
          List.drop_eq_nil_of_le (le_of_eq hlen2),
          List.take_of_length_le (le_of_eq hlen2), List.nil_append,
          show c - L.length % c = 1 by omega, hdrop1]
        norm_num

/-- Under the invariant, `snapshot` returns the last `min L.length c` rows,
oldest first. -/
theorem ringInv_snapshot (m c : Nat) (hc : 1 ≤ c) (L : List (List ℚ)) (s : EmgRingBuffer)
    (hinv : RingInv m c L s) : s.snapshot = L.drop (L.length - c) := by
  obtain ⟨hch, hcap, hidx, hfil, hdata⟩ := hinv
  unfold EmgRingBuffer.snapshot
  rcases Nat.lt_or_ge L.length c with hnf | hf
  · rw [hfil, decide_eq_false (by omega : ¬ c ≤ L.length), if_pos (by simp),
      hdata, if_neg (by omega), hidx, Nat.mod_eq_of_lt hnf,
      List.take_append_eq_append_take, List.take_of_length_le (le_refl L.length),
      Nat.sub_self, List.take_zero, List.append_nil,
      show L.length - c = 0 by omega, List.drop_zero]
  · have hfirstlen : ((L.drop (L.length - c)).drop (c - L.length % c)).length
        = L.length % c := by
      rw [List.length_drop, List.length_drop]
      have hi : L.length % c < c := Nat.mod_lt _ (by omega)
      omega
    rw [hfil, decide_eq_true hf, if_neg (by simp), hdata, if_pos hf, hidx,
      List.drop_append_eq_append_drop,
      List.drop_eq_nil_of_le (le_of_eq hfirstlen), hfirstlen, Nat.sub_self,
      List.drop_zero, List.nil_append,
      List.take_append_eq_append_take,
      List.take_of_length_le (le_of_eq hfirstlen), hfirstlen, Nat.sub_self,
      List.take_zero, List.append_nil, List.take_append_drop]

/-- The invariant holds of all of `appendAll`, starting from any invariant
state. -/
theorem ringInv_appendAll (m c : Nat) (hc : 1 ≤ c) :
    ∀ (R P : List (List ℚ)) (s : EmgRingBuffer), RingInv m c P s →
      (∀ r ∈ R, r.length = m) →
      (s.appendAll R).2 = none ∧ RingInv m c (P ++ R) (s.appendAll R).1 := by
  intro R
  induction R with
  | nil =>
    intro P s hinv _
    exact ⟨rfl, by simpa using hinv⟩
  | cons r R ih =>
    intro P s hinv hR
    have hr : r.length = m := hR r (by simp)
    obtain ⟨h2, hinv1⟩ := ringInv_append m c hc P s hinv r hr
    have hpair : s.append r = ((s.append r).1, none) := by
      rw [← h2]
    unfold EmgRingBuffer.appendAll
    rw [hpair]
    have hnext := ih (P ++ [r]) (s.append r).1 hinv1
      (fun x hx => hR x (by simp [hx]))
    rw [List.append_assoc, List.singleton_append] at hnext
    exact hnext

/-- C5: appending any `n` valid rows to a fresh capacity-`c` buffer
(`c ≥ 1`) succeeds, and `snapshot` then returns exactly the last
`min n c` appended rows, oldest-to-newest; after `c + k` appends it is
exactly the last `c` rows. -/
theorem ring_buffer_snapshot_last_rows (m c : Nat) (L : List (List ℚ)) (hc : 1 ≤ c)
    (hL : ∀ r ∈ L, r.length = m) :
    ((mkEmgRingBuffer m c).appendAll L).2 = none
    ∧ ((mkEmgRingBuffer m c).appendAll L).1.snapshot = L.drop (L.length - c)
    ∧ ((mkEmgRingBuffer m c).appendAll L).1.snapshot.length = min L.length c := by
  have hinv0 : RingInv m c [] (mkEmgRingBuffer m c) := by
    have hnil : ¬ c ≤ List.length ([] : List (List ℚ)) := by
      simp only [List.length_nil]
      omega
    refine ⟨rfl, rfl, by simp [mkEmgRingBuffer], ?_, ?_⟩
    · show false = _
      rw [decide_eq_false hnil]
    · show List.replicate c (List.replicate m 0) = _
      rw [if_neg hnil]
      simp
  obtain ⟨h2, hinv⟩ := ringInv_appendAll m c hc L [] (mkEmgRingBuffer m c) hinv0 hL
  rw [List.nil_append] at hinv
  have hsnap := ringInv_snapshot m c hc L _ hinv
  refine ⟨h2, hsnap, ?_⟩
  rw [hsnap, List.length_drop]
  omega

/-- Witness for C5: capacity 2, one channel, three appends; the snapshot is
the last two rows, oldest first. -/
theorem ring_buffer_snapshot_last_rows_witness :
    ((mkEmgRingBuffer 1 2).appendAll [[5], [6], [7]]).1.snapshot = [[6], [7]] := by
  have h := ring_buffer_snapshot_last_rows 1 2 [[5], [6], [7]] (by norm_num)
    (by intro r hr; fin_cases hr <;> rfl)
  have hs := h.2.1
  norm_num at hs
  exact hs

/-- The scanning loop does nothing on fewer than 29 bytes. -/
theorem processBuffer_short (buffer : List Nat) (h : buffer.length < 29) :
    processBuffer buffer = (buffer, []) := by
  unfold processBuffer
  simp only [PAYLOAD_LENGTH]
  rw [dif_pos h]

/-- The scanning loop on 29 or more bytes without a marker: trim to the last
28 bytes when the accumulator exceeds 29 bytes. -/
theorem processBuffer_noMarker (buffer : List Nat) (h29 : 29 ≤ buffer.length)
    (hm : bufferFind buffer = none) :
    processBuffer buffer
      = (if 29 < buffer.length then buffer.drop (buffer.length - 28) else buffer, []) := by
  unfold processBuffer
  simp only [PAYLOAD_LENGTH]
  rw [dif_neg (by omega), hm]

/-- Marker found but fewer than 29 bytes remain from it: drop the garbage
and wait. -/
theorem processBuffer_marker_keepwait (buffer : List Nat) (pos : Nat)
    (h29 : 29 ≤ buffer.length) (hm : bufferFind buffer = some pos)
    (hrest : (buffer.drop pos).length < 29) :
    processBuffer buffer = (buffer.drop pos, []) := by
  unfold processBuffer
  simp only [PAYLOAD_LENGTH]
  rw [dif_neg (by omega), hm]
  dsimp only
  rw [if_pos hrest]

/-- Marker found with a full frame available: emit it and keep scanning. -/
theorem processBuffer_marker_emit (buffer : List Nat) (pos : Nat)
    (h29 : 29 ≤ buffer.length) (hm : bufferFind buffer = some pos)
    (hrest : ¬ (buffer.drop pos).length < 29) :
    processBuffer buffer
      = ((processBuffer ((buffer.drop pos).drop 29)).1,
          (buffer.drop pos).take 29 :: (processBuffer ((buffer.drop pos).drop 29)).2) := by
  conv_lhs => unfold processBuffer
  simp only [PAYLOAD_LENGTH]
  rw [dif_neg (by omega), hm]
  dsimp only
  rw [if_neg hrest]

/-- The left-over accumulator never exceeds 29 bytes. -/
theorem processBuffer_fst_length_le (buffer : List Nat) :
    (processBuffer buffer).1.length ≤ 29 := by
  generalize hn : buffer.length = n
  induction n using Nat.strong_induction_on generalizing buffer with
  | _ n ih =>
    rcases Nat.lt_or_ge buffer.length 29 with h | h
    · rw [processBuffer_short buffer h]
      dsimp only
      omega
    · match hm : bufferFind buffer with
      | none =>
        rw [processBuffer_noMarker buffer h hm]
        dsimp only
        split_ifs with hgt
        · rw [List.length_drop]
          omega
        · omega
      | some pos =>
        rcases Nat.lt_or_ge (buffer.drop pos).length 29 with hr | hr
        · rw [processBuffer_marker_keepwait buffer pos h hm hr]
          dsimp only
          omega
        · rw [processBuffer_marker_emit buffer pos h hm (by omega)]
          dsimp only
          exact ih (((buffer.drop pos).drop 29).length)
            (by simp only [List.length_drop]; omega) _ rfl

/-- C8: after a scanning pass, an accumulator holding no marker is at most
one frame long; and a marker-free accumulator longer than 29 bytes is
trimmed to exactly its last 28 bytes. -/
theorem synchronizer_accumulator_bound (buffer : List Nat) :
    (bufferFind (processBuffer buffer).1 = none → (processBuffer buffer).1.length ≤ 29)
    ∧ (bufferFind buffer = none → 29 < buffer.length →
        (processBuffer buffer).1 = buffer.drop (buffer.length - 28)) := by
  constructor
  · intro _
    exact processBuffer_fst_length_le buffer
  · intro hm hlen
    rw [processBuffer_noMarker buffer (by omega) hm]
    dsimp only
    rw [if_pos hlen]

/-- Nothing is a marker offset of the empty accumulator. -/
theorem markerAt_nil (i : Nat) : ¬ markerAt [] i := by
  unfold markerAt HEADER
  simp

/-- Shifting a marker offset across a cons cell. -/
theorem markerAt_cons_succ (b : Nat) (rest : List Nat) (i : Nat) :
    markerAt (b :: rest) (i + 1) ↔ markerAt rest i := by
  unfold markerAt
  rw [List.drop_succ_cons]

/-- The scan `find` misses exactly when no offset is a marker offset. -/
theorem bufferFind_eq_none_iff (l : List Nat) :
    bufferFind l = none ↔ ∀ i, ¬ markerAt l i := by
  induction l with
  | nil =>
    simp only [bufferFind]
    exact iff_of_true trivial (fun i => markerAt_nil i)
  | cons b rest ih =>
    by_cases hc : (b :: rest).take 3 = HEADER
    · simp only [bufferFind, if_pos hc]
      refine iff_of_false (by simp) ?_
      intro hall
      exact hall 0 (by unfold markerAt; rw [List.drop_zero]; exact hc)
    · simp only [bufferFind, if_neg hc]
      rw [Option.map_eq_none', ih]
      constructor
      · intro hrest i
        cases i with
        | zero =>
          intro hmk
          unfold markerAt at hmk
          rw [List.drop_zero] at hmk
          exact hc hmk
        | succ i =>
          rw [markerAt_cons_succ]
          exact hrest i
      · intro hall i
        have h := hall (i + 1)
        rwa [markerAt_cons_succ] at h

/-- The scan `find` returns the first marker offset. -/
theorem bufferFind_first (l : List Nat) :
    ∀ (pos : Nat), markerAt l pos → (∀ j, j < pos → ¬ markerAt l j) →
      bufferFind l = some pos := by
  induction l with
  | nil =>
    intro pos h _
    exact absurd h (markerAt_nil pos)
  | cons b rest ih =>
    intro pos h hmin
    cases pos with
    | zero =>
      have hc : (b :: rest).take 3 = HEADER := by
        unfold markerAt at h
        rwa [List.drop_zero] at h
      simp only [bufferFind, if_pos hc]
    | succ pos =>
      have hc : ¬ (b :: rest).take 3 = HEADER := by
        intro hc
        exact hmin 0 (Nat.succ_pos pos) (by unfold markerAt; rwa [List.drop_zero])
      simp only [bufferFind, if_neg hc]
      rw [ih pos (by rwa [markerAt_cons_succ] at h)
        (fun j hj => by
          have hj1 := hmin (j + 1) (by omega)
          rwa [markerAt_cons_succ] at hj1)]
      rfl

/-- A 3-byte prefix check, byte by byte. -/
theorem take3_eq_header_iff (xs : List Nat) :
    xs.take 3 = HEADER
      ↔ xs[0]? = some 0xD2 ∧ xs[1]? = some 0xD2 ∧ xs[2]? = some 0xD2 := by
  match xs with
  | [] => simp [HEADER]
  | [a] => simp [HEADER]
  | [a, b] => simp [HEADER]
  | a :: b :: c :: rest => simp [HEADER]

/-- Marker offsets, byte by byte. -/
theorem markerAt_iff_bytes (l : List Nat) (i : Nat) :
    markerAt l i
      ↔ l[i]? = some 0xD2 ∧ l[i + 1]? = some 0xD2 ∧ l[i + 2]? = some 0xD2 := by
  unfold markerAt
  rw [take3_eq_header_iff, List.getElem?_drop, List.getElem?_drop, List.getElem?_drop]
  norm_num

/-- A marker offset survives dropping a prefix, shifted. -/
theorem markerAt_drop (l : List Nat) (j i : Nat) :
    markerAt (l.drop j) i ↔ markerAt l (j + i) := by
  unfold markerAt
  rw [List.drop_drop]

/-- A marker offset of a prefix is a marker offset of the list, and its
window lies inside the prefix. -/
theorem markerAt_take (l : List Nat) (p i : Nat) (h : markerAt (l.take p) i) :
    markerAt l i ∧ i + 3 ≤ p := by
  rw [markerAt_iff_bytes] at h
  obtain ⟨h0, h1, h2⟩ := h
  rw [List.getElem?_take] at h0 h1 h2
  split_ifs at h0 h1 h2 with hp0 hp1 hp2
  · exact ⟨(markerAt_iff_bytes l i).mpr ⟨h0, h1, h2⟩, by omega⟩

/-- Conversely, a marker offset whose window lies inside the prefix is a
marker offset of the prefix. -/
theorem markerAt_take_of (l : List Nat) (p i : Nat) (h : markerAt l i) (hp : i + 3 ≤ p) :
    markerAt (l.take p) i := by
  rw [markerAt_iff_bytes] at h ⊢
  obtain ⟨h0, h1, h2⟩ := h
  refine ⟨?_, ?_, ?_⟩
  · rw [List.getElem?_take, if_pos (by omega)]
    exact h0
  · rw [List.getElem?_take, if_pos (by omega)]
    exact h1
  · rw [List.getElem?_take, if_pos (by omega)]
    exact h2

/-- If the garbage holds no marker and does not end in `0xD2`, then the
first marker of garbage-then-frame sits exactly at the frame boundary. -/
theorem no_marker_before_frame (G F : List Nat)
    (hG : bufferFind G = none) (hGend : G.getLast? ≠ some 0xD2) :
    ∀ q, q < G.length → ¬ markerAt (G ++ F) q := by
  intro q hq hmk
  have happ : ∀ k, k < G.length → (G ++ F)[k]? = G[k]? := by
    intro k hk
    rw [List.getElem?_append, if_pos hk]
  rw [markerAt_iff_bytes] at hmk
  obtain ⟨h0, h1, h2⟩ := hmk
  rcases Nat.lt_or_ge (q + 2) G.length with hin | hout
  · have hmG : markerAt G q := by
      rw [markerAt_iff_bytes]
      exact ⟨(happ q hq).symm.trans h0,
        (happ (q + 1) (by omega)).symm.trans h1,
        (happ (q + 2) (by omega)).symm.trans h2⟩
    exact (bufferFind_eq_none_iff G).mp hG q hmG
  · have hlast : G.getLast? = some 0xD2 := by
      rw [List.getLast?_eq_getElem?]
      have hj : G.length - 1 = q ∨ G.length - 1 = q + 1 ∨ G.length - 1 = q + 2 := by omega
      rcases hj with hj | hj | hj
      · rw [hj]
        exact (happ q hq).symm.trans h0
      · rw [hj]
        exact (happ (q + 1) (by omega)).symm.trans h1
      · rw [hj]
        exact (happ (q + 2) (by omega)).symm.trans h2
    exact hGend hlast

/-- One scanning pass over a partial garbage-then-frame stream: as long as
the frame is not yet complete (`p < G.length + 29` bytes consumed), nothing
is emitted and the accumulator stays a contiguous slice of the stream whose
start has not passed the frame boundary. -/
theorem processBuffer_mid (G F : List Nat)
    (hFlen : F.length = 29) (hF3 : F.take 3 = HEADER)
    (hnm : ∀ q, q < G.length → ¬ markerAt (G ++ F) q)
    (p j : Nat) (hplt : p < G.length + 29) (hj : j ≤ G.length) (hjp : j ≤ p) :
    ∃ j', j' ≤ G.length ∧ j' ≤ p ∧
      processBuffer (((G ++ F).take p).drop j) = (((G ++ F).take p).drop j', []) := by
  have hSlen : (G ++ F).length = G.length + 29 := by
    rw [List.length_append, hFlen]
  have hblen : (((G ++ F).take p).drop j).length = p - j := by
    rw [List.length_drop, List.length_take_of_le (by omega)]
  rcases Nat.lt_or_ge (p - j) 29 with hlt | hge
  · exact ⟨j, hj, hjp, processBuffer_short _ (by rw [hblen]; omega)⟩
  · have h29b : 29 ≤ (((G ++ F).take p).drop j).length := by
      rw [hblen]
      omega
    rcases Nat.lt_or_ge p (G.length + 3) with hsmall | hbig
    · have hnone : bufferFind (((G ++ F).take p).drop j) = none := by
        rw [bufferFind_eq_none_iff]
        intro i hmk
        rw [markerAt_drop] at hmk
        obtain ⟨hmk', hwin⟩ := markerAt_take _ _ _ hmk
        exact hnm (j + i) (by omega) hmk'
      have heq := processBuffer_noMarker _ h29b hnone
      by_cases htrim : 29 < (((G ++ F).take p).drop j).length
      · refine ⟨p - 28, by omega, by omega, ?_⟩
        rw [heq, if_pos htrim, hblen]
        have hd : (((G ++ F).take p).drop j).drop (p - j - 28)
            = ((G ++ F).take p).drop (p - 28) := by
          rw [List.drop_drop]
          congr 1
          omega
        rw [hd]
      · refine ⟨j, hj, hjp, ?_⟩
        rw [heq, if_neg htrim]
    · have hmkS : markerAt (G ++ F) G.length := by
        unfold markerAt
        rw [List.drop_left]
        exact hF3
      have hmkb : markerAt (((G ++ F).take p).drop j) (G.length - j) := by
        rw [markerAt_drop, show j + (G.length - j) = G.length by omega]
        exact markerAt_take_of _ _ _ hmkS (by omega)
      have hmin : ∀ i, i < G.length - j → ¬ markerAt (((G ++ F).take p).drop j) i := by
        intro i hi hmk
        rw [markerAt_drop] at hmk
        obtain ⟨hmk', hwin⟩ := markerAt_take _ _ _ hmk
        exact hnm (j + i) (by omega) hmk'
      have hfind := bufferFind_first _ _ hmkb hmin
      have hrest : ((((G ++ F).take p).drop j).drop (G.length - j)).length < 29 := by
        rw [List.length_drop, hblen]
        omega
      have heq := processBuffer_marker_keepwait _ _ h29b hfind hrest
      refine ⟨G.length, le_refl _, by omega, ?_⟩
      rw [heq, List.drop_drop, show j + (G.length - j) = G.length by omega]

/-- The scanning pass that sees the frame's last byte: the frame is emitted
whole and the accumulator empties. -/
theorem processBuffer_final (G F : List Nat)
    (hFlen : F.length = 29) (hF3 : F.take 3 = HEADER)
    (hnm : ∀ q, q < G.length → ¬ markerAt (G ++ F) q)
    (j : Nat) (hj : j ≤ G.length) :
    processBuffer ((G ++ F).drop j) = ([], [F]) := by
  have hSlen : (G ++ F).length = G.length + 29 := by
    rw [List.length_append, hFlen]
  have hblen : ((G ++ F).drop j).length = G.length + 29 - j := by
    rw [List.length_drop, hSlen]
  have hmkb : markerAt ((G ++ F).drop j) (G.length - j) := by
    rw [markerAt_drop, show j + (G.length - j) = G.length by omega]
    unfold markerAt
    rw [List.drop_left]
    exact hF3
  have hmin : ∀ i, i < G.length - j → ¬ markerAt ((G ++ F).drop j) i := by
    intro i hi hmk
    rw [markerAt_drop] at hmk
    exact hnm (j + i) (by omega) hmk
  have hfind := bufferFind_first _ _ hmkb hmin
  have hdropb : ((G ++ F).drop j).drop (G.length - j) = F := by
    rw [List.drop_drop, show j + (G.length - j) = G.length by omega, List.drop_left]
  have hrest : ¬ (((G ++ F).drop j).drop (G.length - j)).length < 29 := by
    rw [hdropb, hFlen]
    omega
  have heq := processBuffer_marker_emit _ _ (by rw [hblen]; omega) hfind hrest
  rw [heq, hdropb, show F.drop 29 = [] from by rw [← hFlen]; exact List.drop_length F,
    processBuffer_short [] (by simp),
    List.take_of_length_le (le_of_eq hFlen)]

/-- Feeding chunks that flatten to nothing leaves an empty accumulator and
emits nothing. -/
theorem feedChunks_empty (cs : List (List Nat)) (h : cs.flatten = []) :
    feedChunks [] cs = ([], []) := by
  induction cs with
  | nil => rfl
  | cons c cs ih =>
    rw [List.flatten_cons, List.append_eq_nil] at h
    obtain ⟨hc, hcs⟩ := h
    simp only [feedChunks]
    rw [hc, show processBuffer ([] ++ []) = ([], []) from processBuffer_short _ (by simp),
      ih hcs]
    rfl

/-- Chunk-by-chunk invariant: while the accumulator is a slice of the
stream consumed so far, feeding the remaining chunks emits exactly the
frame. -/
theorem feedChunks_emits (G F : List Nat)
    (hFlen : F.length = 29) (hF3 : F.take 3 = HEADER)
    (hnm : ∀ q, q < G.length → ¬ markerAt (G ++ F) q) :
    ∀ (cs : List (List Nat)) (p j : Nat),
      cs.flatten = (G ++ F).drop p → j ≤ G.length → j ≤ p → p < G.length + 29 →
      (feedChunks (((G ++ F).take p).drop j) cs).2 = [F] := by
  intro cs
  induction cs with
  | nil =>
    intro p j hflat hj hjp hp
    exfalso
    have hlen := congrArg List.length hflat
    rw [List.flatten_nil, List.length_nil, List.length_drop, List.length_append, hFlen] at hlen
    omega
  | cons c cs ih =>
    intro p j hflat hj hjp hp
    have hSlen : (G ++ F).length = G.length + 29 := by
      rw [List.length_append, hFlen]
    have hclen : c.length ≤ G.length + 29 - p := by
      have hl := congrArg List.length hflat
      rw [List.flatten_cons, List.length_append, List.length_drop, hSlen] at hl
      omega
    have hc : c = ((G ++ F).drop p).take c.length := by
      rw [List.flatten_cons] at hflat
      have ht := congrArg (List.take c.length) hflat
      rwa [List.take_left] at ht
    have hcsf : cs.flatten = (G ++ F).drop (p + c.length) := by
      rw [List.flatten_cons] at hflat
      have hd := congrArg (List.drop c.length) hflat
      rw [List.drop_left] at hd
      rw [hd, List.drop_drop]
    have hbuf : ((G ++ F).take p).drop j ++ c = ((G ++ F).take (p + c.length)).drop j := by
      have h1 : (G ++ F).take (p + c.length) = (G ++ F).take p ++ c := by
        rw [List.take_add, ← hc]
      rw [h1, List.drop_append_eq_append_drop,
        List.length_take_of_le (show p ≤ (G ++ F).length by omega),
        show j - p = 0 by omega, List.drop_zero]
    rcases Nat.lt_or_ge (p + c.length) (G.length + 29) with hmid | hfin
    · obtain ⟨j', hj', hj'p, heq⟩ :=
        processBuffer_mid G F hFlen hF3 hnm (p + c.length) j hmid hj (by omega)
      simp only [feedChunks]
      rw [hbuf, heq]
      exact ih (p + c.length) j' hcsf hj' hj'p hmid
    · have hpfin : p + c.length = G.length + 29 := by omega
      have hbuf2 : ((G ++ F).take p).drop j ++ c = (G ++ F).drop j := by
        rw [hbuf, hpfin, ← hSlen, List.take_length]
      have hcsnil : cs.flatten = [] := by
        rw [hcsf, hpfin, ← hSlen, List.drop_length]
      simp only [feedChunks]
      rw [hbuf2, processBuffer_final G F hFlen hF3 hnm j hj, feedChunks_empty cs hcsnil]
      rfl

/-- C2 (amended): if the garbage `G` contains no marker and does not end
with the byte `0xD2` (so that no spurious marker straddles the
garbage/frame boundary), feeding `G` followed by one valid frame `F`, split
across feed calls in any way, emits exactly one frame, equal to `F`. -/
theorem synchronizer_garbage_then_frame (G F : List Nat) (chunks : List (List Nat))
    (hG : bufferFind G = none) (hGend : G.getLast? ≠ some 0xD2)
    (hFlen : F.length = 29) (hF3 : F.take 3 = HEADER)
    (hsplit : chunks.flatten = G ++ F) :
    (feedChunks [] chunks).2 = [F] := by
  have hnm := no_marker_before_frame G F hG hGend
  have h := feedChunks_emits G F hFlen hF3 hnm chunks 0 0
    (by rw [List.drop_zero]; exact hsplit) (by omega) (le_refl 0) (by omega)
  simpa using h

/-- Witness for C2: three garbage bytes, then a muscle frame, split across
three feed calls with one split in the middle of the marker. -/
theorem synchronizer_garbage_then_frame_witness :
    (feedChunks []
      [[1, 2], [3, 0xD2], [0xD2, 0xD2, 0xAA, 0] ++ List.replicate 24 0]).2
      = [[0xD2, 0xD2, 0xD2, 0xAA, 0] ++ List.replicate 24 0] :=
  synchronizer_garbage_then_frame [1, 2, 3]
    ([0xD2, 0xD2, 0xD2, 0xAA, 0] ++ List.replicate 24 0)
    [[1, 2], [3, 0xD2], [0xD2, 0xD2, 0xAA, 0] ++ List.replicate 24 0]
    (by decide) (by decide) (by decide) (by decide) (by decide)

/-- C2 as stated is false: the two garbage bytes `D2 D2` contain no marker
occurrence, yet together with the frame's own marker they form an earlier
marker, so the synchronizer emits a misaligned 29-byte block instead of the
frame. -/
theorem synchronizer_garbage_then_frame_counterexample :
    bufferFind [0xD2, 0xD2] = none
    ∧ ([0xD2, 0xD2, 0xD2, 0xAA, 0] ++ List.replicate 24 0).length = 29
    ∧ ([0xD2, 0xD2, 0xD2, 0xAA, 0] ++ List.replicate 24 0).take 3 = HEADER
    ∧ (feedChunks []
        [[0xD2, 0xD2] ++ ([0xD2, 0xD2, 0xD2, 0xAA, 0] ++ List.replicate 24 0)]).2
      ≠ [[0xD2, 0xD2, 0xD2, 0xAA, 0] ++ List.replicate 24 0] := by
  refine ⟨by decide, by decide, by decide, ?_⟩
  have hemit := processBuffer_marker_emit
    ([0xD2, 0xD2] ++ ([0xD2, 0xD2, 0xD2, 0xAA, 0] ++ List.replicate 24 0)) 0
    (by decide) (by decide) (by decide)
  have hshort := processBuffer_short
    ((([0xD2, 0xD2] ++ ([0xD2, 0xD2, 0xD2, 0xAA, 0] ++ List.replicate 24 0)).drop 0).drop 29)
    (by decide)
  simp only [feedChunks]
  rw [List.nil_append, hemit, hshort]
  decide
